import Mathlib

/-!
Verification of the huma-rime-adder table codec and merge-write engine.

Shallow embedding of the Python sources:
  * `model/columns.py`  — `ColumnsModel` (header schema parser),
  * `model/cache.py`    — `CacheList` / `DeleteCacheList`,
  * `model/calc.py`     — `_parseTigress`, `_getCode`, `_getRange`,
    `encode`, `simple`, `query`, `checkShortThreeWords`, `_writeMain`,
  * `common/conversion.py` — `strToInt`, `safeGet`,
  * `common/english.py` — `isPureEnglish`.

Python `dict`s are modelled as insertion-ordered association lists
(`alistGet` / `alistSet`), which reproduces CPython's ordered-dict
semantics: assignment to an existing key replaces its value in place,
a new key is appended at the end.  Integer-or-string weights (the
`int | str` unions in `type/dict.py`) are modelled by `WVal`, whose
`pyStr` is Python's `str()`.  File I/O is abstracted away: functions
take and produce the list of lines of a file (Python `splitlines`,
written back joined with a trailing `"\n"` per line).
-/

namespace HumaAdder

/-- Python's `str()` union of `int | str` weights (`type/dict.py`). -/
inductive WVal where
  | int : Int → WVal
  | str : String → WVal
deriving DecidableEq, Repr

/-- Python `str(w)` for a `WVal`. -/
def WVal.pyStr : WVal → String
  | .int n => toString n
  | .str s => s

/-- Insertion-ordered association-list lookup (Python `d[k]` / `k in d`). -/
def alistGet {β : Type} (m : List (String × β)) (k : String) : Option β :=
  match m with
  | [] => none
  | (k0, v0) :: rest => if k0 == k then some v0 else alistGet rest k

/-- Insertion-ordered association-list assignment (Python `d[k] = v`):
replace in place when the key exists, otherwise append. -/
def alistSet {β : Type} (m : List (String × β)) (k : String) (v : β) :
    List (String × β) :=
  match m with
  | [] => [(k, v)]
  | (k0, v0) :: rest =>
    if k0 == k then (k0, v) :: rest else (k0, v0) :: alistSet rest k v

/-- Characters removed by Python `str.strip()` (ASCII whitespace; the
tables only ever carry ASCII whitespace at line edges). -/
def pyWsChar (c : Char) : Bool :=
  c == ' ' || c == '\t' || c == '\n' || c == '\r' || c == '\x0b' || c == '\x0c'

/-- Python `line.strip()`. -/
def pyStrip (s : String) : String :=
  String.mk (((s.data.dropWhile pyWsChar).reverse.dropWhile pyWsChar).reverse)

/-- Python `s.startswith(p)`. -/
def strStartsWith (s p : String) : Bool :=
  p.data.isPrefixOf s.data

/-- The splitter behind Python `s.split(sep)` for a one-character
separator (the tables are split on `"\t"` only). -/
def splitRun (sep : Char) : List Char → List Char → List String
  | [], acc => [String.mk acc.reverse]
  | c :: cs, acc =>
    if c == sep then String.mk acc.reverse :: splitRun sep cs []
    else splitRun sep cs (c :: acc)

/-- Python `s.split("\t")` (which never drops empty fields). -/
def splitTab (s : String) : List String :=
  splitRun '\t' s.data []

/-- Python `s[0:n]`: the leading `n`-code-point slice. -/
def strTake (s : String) (n : Nat) : String :=
  String.mk (s.data.take n)

/-- Python `"\t".join(parts)`. -/
def joinTab : List String → String
  | [] => ""
  | [s] => s
  | s :: rest => s ++ "\t" ++ joinTab rest

/-- Python `s.isdigit()` (restricted to the ASCII digits that appear in
weight columns). -/
def pyIsDigit (s : String) : Bool :=
  s.length != 0 && s.data.all Char.isDigit

/-- Decimal value of a digit string. -/
def digitsToNat (cs : List Char) : Nat :=
  cs.foldl (fun a c => a * 10 + (c.toNat - 48)) 0

/-- Model of `common/conversion.py` `strToInt`: parse a digit string, `0` otherwise. -/
def strToInt (s : String) : Int :=
  if pyIsDigit s then (digitsToNat s.data : Int) else 0

/-- Model of `common/conversion.py` `safeGet`: Python list indexing with negative
indices, returning the default on `IndexError`. -/
def safeGet (l : List String) (i : Int) (dflt : String) : String :=
  if 0 ≤ i then l.getD i.toNat dflt
  else if (0 : Int) ≤ i + l.length then l.getD (i + l.length).toNat dflt
  else dflt

/-- Model of `common/english.py` `isPureEnglish`: full match of `[A-Za-z]+`. -/
def isPureEnglish (s : String) : Bool :=
  s.length != 0 &&
    s.data.all (fun c => (('a' ≤ c && c ≤ 'z') || ('A' ≤ c && c ≤ 'Z')))

/-! ## Column schema model (`model/columns.py`) -/

/-- The `Columns` TypedDict: resolved ranks of the three columns. -/
structure Columns where
  text : Int
  code : Int
  weight : Int
deriving DecidableEq, Repr

/-- A placeholder of the serialization format template `self.str`. -/
inductive ColTok where
  | text
  | code
  | weight
deriving DecidableEq, Repr

/-- Model of `ColumnsModel` state.  The tab-joined placeholder string `self.str`
is kept abstractly as the placeholder list `fmt`. -/
structure ColumnsModel where
  dict : Columns
  fmt : List ColTok
  isCompleted : Bool
  columnsScope : Bool
deriving DecidableEq, Repr

/-- Model of `ColumnsModel.__init__`. -/
def ColumnsModel.init : ColumnsModel :=
  ⟨⟨-1, -1, -1⟩, [], false, false⟩

/-- Model of `max(self.dict.values())`. -/
def colsMax (c : Columns) : Int :=
  max c.text (max c.code c.weight)

/-- Model of `ColumnsModel._parseColumns`. -/
def parseColumns (c : ColumnsModel) (line : String) : ColumnsModel :=
  let d := c.dict
  let d :=
    if strStartsWith line "- text" then { d with text := colsMax d + 1 }
    else if strStartsWith line "- code" then { d with code := colsMax d + 1 }
    else if strStartsWith line "- weight" then { d with weight := colsMax d + 1 }
    else d
  { c with dict := d, columnsScope := !(colsMax d == 2) }

/-- Model of `ColumnsModel._setFormatStr` (including the all-unset default
`{text: 0, code: 1, weight: 2}`). -/
def setFormatStr (c : ColumnsModel) : ColumnsModel :=
  let d :=
    if c.dict.text == -1 && c.dict.code == -1 && c.dict.weight == -1 then
      (⟨0, 1, 2⟩ : Columns)
    else c.dict
  let pick : Int → List ColTok := fun i =>
    if d.text == i then [.text]
    else if d.code == i then [.code]
    else if d.weight == i then [.weight]
    else []
  { c with dict := d, fmt := pick 0 ++ pick 1 ++ pick 2 }

/-- Model of `ColumnsModel.lineHandler`. -/
def lineHandler (c : ColumnsModel) (line : String) : ColumnsModel :=
  if line == "..." then setFormatStr { c with isCompleted := true }
  else if line == "columns:" then { c with columnsScope := true }
  else if c.columnsScope then parseColumns c line
  else c

/-- One placeholder of `self.str.format(text=…, code=…, weight=…)`. -/
def renderTok (text code weight : String) : ColTok → String
  | .text => text
  | .code => code
  | .weight => weight

/-- Model of `self.str.format(text=…, code=…, weight=…)`: the tab-joined row. -/
def formatRow (c : ColumnsModel) (text code weight : String) : String :=
  joinTab (c.fmt.map (renderTok text code weight))

/-! ## Data units (`type/dict.py`) -/

/-- Model of `CacheUnit` (`word`, `code`, `weight: int | str`). -/
structure CacheUnit where
  word : String
  code : String
  weight : WVal
deriving DecidableEq, Repr

/-- Model of `WordTableUnit` as used by `calc.py` delete caches: a row identified
by `word`, `code`, `weight` plus its `source` table. -/
structure WordTableUnit where
  word : String
  code : String
  weight : WVal
  source : String
deriving DecidableEq, Repr

/-- Model of `CodeUnit`: one entry of the duplicate-entry (`_codeDict`) index. -/
structure CodeUnit where
  word : String
  weight : Int
  source : String
deriving DecidableEq, Repr

/-- Model of `CodeTableUnit`: a `query` result (`CodeUnit` plus the
common-range flag). -/
structure CodeTableUnit where
  word : String
  weight : Int
  source : String
  range : Bool
deriving DecidableEq, Repr

/-! ## Cache layer (`model/cache.py`) -/

/-- The `(word, code)` key used by `CacheList`. -/
def cacheKey (u : CacheUnit) : String × String :=
  (u.word, u.code)

/-- Python code-point comparison of character lists (`str <`). -/
def clLt : List Char → List Char → Bool
  | [], [] => false
  | [], _ :: _ => true
  | _ :: _, [] => false
  | a :: as, b :: bs =>
    if a.toNat < b.toNat then true
    else if b.toNat < a.toNat then false
    else clLt as bs

/-- Python `str <`. -/
def strLtB (a b : String) : Bool :=
  clLt a.data b.data

/-- Python tuple comparison `(w, c) < (w', c')` on string pairs. -/
def keyLtB (a b : String × String) : Bool :=
  strLtB a.1 b.1 || (a.1 == b.1 && strLtB a.2 b.2)

/-- Python tuple comparison `(w, c) <= (w', c')` on string pairs. -/
def keyLeB (a b : String × String) : Bool :=
  keyLtB a b || a == b

/-- One step of `CacheList._processList`'s backward iteration over the
raw list: `tempDict[key]["weight"] = item["weight"]` when the key is
already present, `tempDict[key] = item` otherwise. -/
def dedupStep (m : List ((String × String) × CacheUnit)) (u : CacheUnit) :
    List ((String × String) × CacheUnit) :=
  if m.any (fun p => p.1 == cacheKey u) then
    m.map (fun p =>
      if p.1 == cacheKey u then (p.1, { p.2 with weight := u.weight }) else p)
  else m ++ [(cacheKey u, u)]

/-- The `tempDict` built by `_processList`: the raw list traversed from
its last element down to its first. -/
def dedupBack (l : List CacheUnit) : List ((String × String) × CacheUnit) :=
  l.foldr (fun u m => dedupStep m u) []

/-- Insertion into a key-sorted association list.  `_processList` ends
with Python `sorted(tempDict.items())`; since the dict keys are
pairwise distinct, any sort by key produces the same list, so a plain
insertion sort is a faithful model of `sorted`. -/
def insEntry (x : (String × String) × CacheUnit) :
    List ((String × String) × CacheUnit) →
    List ((String × String) × CacheUnit)
  | [] => [x]
  | y :: ys => if keyLtB x.1 y.1 then x :: y :: ys else y :: insEntry x ys

/-- Model of `sorted(tempDict.items())`. -/
def sortEntries (l : List ((String × String) × CacheUnit)) :
    List ((String × String) × CacheUnit) :=
  l.foldr insEntry []

/-- Model of `CacheList._processList` as run by the constructor: backward
key-deduplication followed by the key-sorted rebuild
`self[:] = [item for _, item in sorted(tempDict.items())]`. -/
def processList (l : List CacheUnit) : List CacheUnit :=
  (sortEntries (dedupBack l)).map (·.2)

/-- Model of `CacheList.push`: overwrite the weight of the first `(word, code)`
match in place, else append. -/
def cachePush (l : List CacheUnit) (v : CacheUnit) : List CacheUnit :=
  match l with
  | [] => [v]
  | x :: xs =>
    if x.word == v.word && x.code == v.code then
      { x with weight := v.weight } :: xs
    else x :: cachePush xs v

/-- Model of `CacheList.find`: remove and return the first `(word, code)` match. -/
def cacheFind (l : List CacheUnit) (word code : String) :
    Option CacheUnit × List CacheUnit :=
  match l with
  | [] => (none, [])
  | x :: xs =>
    if x.word == word && x.code == code then (some x, xs)
    else
      let r := cacheFind xs word code
      (r.1, x :: r.2)

/-- Model of `DeleteCacheList.find`: remove the first entry whose word and code
match and whose weight has the same `str()` representation; report
whether one existed. -/
def delFind (l : List WordTableUnit) (word code : String) (weight : WVal) :
    Bool × List WordTableUnit :=
  match l with
  | [] => (false, [])
  | x :: xs =>
    if x.word == word && x.code == code && x.weight.pyStr == weight.pyStr then
      (true, xs)
    else
      let r := delFind xs word code weight
      (r.1, x :: r.2)

/-! ## Calculation model (`model/calc.py`) -/

/-- The fixed punctuation/symbol set deleted by `getCleanWord`
(`self._deleteCharsTable`).  The ASCII apostrophe is written by code
point. -/
def deleteChars : List Char :=
  ['!', '@', '#', '$', '%', '^', '&', '*', '(', ')', '-', '=', '_', '+',
   ',', '.', '！', '？', '￥', '、', '，', '。', '“', '”', '‘', '’', '"',
   Char.ofNat 39, ':', ';', '<', '>', '《', '》', '—', '…', '：', '；',
   '（', '）', '『', '』', '「', '」', '〖', '〗', '~', '|', '·', ' ']

/-- Model of `CalcModel.getCleanWord`: `word.translate(self._deleteCharsTable)`. -/
def getCleanWord (word : String) : String :=
  String.mk (word.data.filter (fun c => !deleteChars.contains c))

/-- Model of `CalcModel._getRange`: every character of the word is in the
common-charset set. -/
def getRange (charset : List String) (word : String) : Bool :=
  word.data.all (fun ch => charset.contains (String.mk [ch]))

/-- Model of `CalcModel._getCode`: a `codeSize`-bounded leading slice of the
character's best known code, empty when the character is unknown. -/
def getCode (characterDict : List (String × String)) (ch : Char)
    (codeSize : Nat) : String :=
  match alistGet characterDict (String.mk [ch]) with
  | some code => strTake code codeSize
  | none => ""

/-- The non-English code of `CalcModel.encode` step 3, by word length. -/
def encodeCode (characterDict : List (String × String)) :
    List Char → String
  | [] => ""
  | [c] => getCode characterDict c 4
  | [c1, c2] => getCode characterDict c1 2 ++ getCode characterDict c2 2
  | [c1, c2, c3] =>
    getCode characterDict c1 1 ++ getCode characterDict c2 1 ++
      getCode characterDict c3 2
  | c1 :: c2 :: c3 :: c4 :: rest =>
    getCode characterDict c1 1 ++ getCode characterDict c2 1 ++
      getCode characterDict c3 1 ++
      getCode characterDict (rest.getLastD c4) 1

/-- The non-English code of `CalcModel.simple`: 1-character slices at
every position (chars 1, 2, 3 and the last for length ≥ 4). -/
def simpleCode (characterDict : List (String × String)) :
    List Char → String
  | [] => ""
  | [c] => getCode characterDict c 1
  | [c1, c2] => getCode characterDict c1 1 ++ getCode characterDict c2 1
  | [c1, c2, c3] =>
    getCode characterDict c1 1 ++ getCode characterDict c2 1 ++
      getCode characterDict c3 1
  | c1 :: c2 :: c3 :: c4 :: rest =>
    getCode characterDict c1 1 ++ getCode characterDict c2 1 ++
      getCode characterDict c3 1 ++
      getCode characterDict (rest.getLastD c4) 1

/-- Model of `EncodeResult` (`type/dict.py`). -/
structure EncodeResult where
  cleanWord : String
  isEnglish : Bool
  code : String
  weight : Int
  range : Bool
deriving DecidableEq, Repr

/-- Python `str.lower()` restricted to the pure-ASCII words it is
applied to in `simple`. -/
def pyLower (s : String) : String :=
  String.mk (s.data.map Char.toLower)

/-- Model of `CalcModel.encode`: clean the word, classify English, derive the
length-ruled code, and assign the 255 sentinel weight exactly when the
non-English code is nonempty and absent from the duplicate-entry
index. -/
def encode (characterDict : List (String × String))
    (codeDict : List (String × List CodeUnit)) (charset : List String)
    (word : String) : EncodeResult :=
  let cleanWord := getCleanWord word
  if cleanWord.length == 0 then ⟨"", false, "", 0, false⟩
  else
    let isEng := isPureEnglish cleanWord
    let newCode := if isEng then cleanWord else encodeCode characterDict cleanWord.data
    let weight : Int :=
      if !isEng && newCode != "" && (alistGet codeDict newCode).isNone then 255
      else 0
    ⟨cleanWord, isEng, newCode, weight, getRange charset cleanWord⟩

/-- Model of `CalcModel.simple`: the short-form variant (lower-cased English
code, 1-character slices everywhere). -/
def simple (characterDict : List (String × String))
    (codeDict : List (String × List CodeUnit)) (charset : List String)
    (word : String) : EncodeResult :=
  let cleanWord := getCleanWord word
  if cleanWord.length == 0 then ⟨"", false, "", 0, false⟩
  else
    let isEng := isPureEnglish cleanWord
    let newCode :=
      if isEng then pyLower cleanWord else simpleCode characterDict cleanWord.data
    let weight : Int :=
      if !isEng && newCode != "" && (alistGet codeDict newCode).isNone then 255
      else 0
    ⟨cleanWord, isEng, newCode, weight, getRange charset cleanWord⟩

/-! ## Index builder (`CalcModel._parseTigress`, `_parseMain`) -/

/-- The index state touched by `_parseTigress`: the per-character
best-code map and the per-code duplicate-entry map. -/
structure TigState where
  characterDict : List (String × String)
  codeDict : List (String × List CodeUnit)
deriving DecidableEq, Repr

/-- The empty index state of `CalcModel.__init__`. -/
def TigState.init : TigState :=
  ⟨[], []⟩

/-- The body-row handling of `_parseTigress`: longest-code-wins update
of the character map for single-character words, and an unconditional
append to the code's duplicate-entry list (`收录所有词条项`). -/
def tigressRow (st : TigState) (word code : String) (weight : Int)
    (tableName : String) : TigState :=
  let chd :=
    if word.length == 1 then
      match alistGet st.characterDict word with
      | some old =>
        if old.length < code.length then alistSet st.characterDict word code
        else st.characterDict
      | none => alistSet st.characterDict word code
    else st.characterDict
  let cod :=
    match alistGet st.codeDict code with
    | some l =>
      alistSet st.codeDict code (l ++ [⟨word, weight, tableName⟩])
    | none =>
      if code != "" then st.codeDict ++ [(code, [⟨word, weight, tableName⟩])]
      else st.codeDict
  ⟨chd, cod⟩

/-- One line of the `_parseTigress` loop. -/
def parseTigressLine (tableName : String) (s : ColumnsModel × TigState)
    (line : String) : ColumnsModel × TigState :=
  let item := pyStrip line
  if !s.1.isCompleted then (lineHandler s.1 item, s.2)
  else
    let fields := splitTab item
    if fields.length < 3 then s
    else
      let word := safeGet fields s.1.dict.text ""
      let code := safeGet fields s.1.dict.code ""
      let weight := strToInt (safeGet fields s.1.dict.weight "")
      (s.1, tigressRow s.2 word code weight tableName)

/-- Model of `CalcModel._parseTigress`: fold the file's lines through a fresh
`ColumnsModel` into the shared index state. -/
def parseTigress (lines : List String) (tableName : String)
    (st : TigState) : TigState :=
  (lines.foldl (parseTigressLine tableName) (ColumnsModel.init, st)).2

/-- The lowercase ASCII alphabet of `_parseMain`'s seeding loop. -/
def lettersChars : List Char :=
  ['a', 'b', 'c', 'd', 'e', 'f', 'g', 'h', 'i', 'j', 'k', 'l', 'm',
   'n', 'o', 'p', 'q', 'r', 's', 't', 'u', 'v', 'w', 'x', 'y', 'z']

/-- One iteration of the letter-seeding loop of `_parseMain`:
`self._characterDict[ch] = ch; self._characterDict[ch.upper()] = ch`. -/
def seedStep (m : List (String × String)) (ch : Char) :
    List (String × String) :=
  alistSet (alistSet m (String.mk [ch]) (String.mk [ch]))
    (String.mk [ch.toUpper]) (String.mk [ch])

/-- The letter-seeding loop at the end of `_parseMain`. -/
def seedLetters (d : List (String × String)) : List (String × String) :=
  lettersChars.foldl seedStep d

/-! ## Conflict checker (`CalcModel.checkShortThreeWords`) -/

/-- The per-code scan of the length-3 branch of `checkShortThreeWords`:
count entries whose clean word has length 3 (`hadWords`) and record
whether any other entry's clean word lies in the common range
(`hadOther`). -/
def shortThreeScan (charset : List String) (entries : List CodeUnit) :
    Nat × Bool :=
  entries.foldl
    (fun acc c =>
      let w := getCleanWord c.word
      if w.length == 3 then (acc.1 + 1, acc.2)
      else if getRange charset w then (acc.1, true)
      else acc)
    (0, false)

/-- Whether the length-3 branch of `checkShortThreeWords` reports the
code as conflicting: `(hadWords > 1) or (hadOther and hadWords > 0)`. -/
def shortThreeConflict (charset : List String) (entries : List CodeUnit) :
    Bool :=
  let s := shortThreeScan charset entries
  decide (1 < s.1) || (s.2 && decide (0 < s.1))

/-- The conflicting codes reported over a whole duplicate-entry index. -/
def conflictCodes (codeDict : List (String × List CodeUnit))
    (charset : List String) : List String :=
  codeDict.filterMap fun p =>
    if p.1.length == 3 && shortThreeConflict charset p.2 then some p.1
    else none

/-! ## Query (`CalcModel.query`) -/

/-- Stable descending insertion by weight, modelling the in-place
Python `list.sort(key=weight, reverse=True)` (Python's sort is
stable). -/
def insByWeight (x : CodeUnit) : List CodeUnit → List CodeUnit
  | [] => [x]
  | y :: ys => if y.weight ≤ x.weight then x :: y :: ys else y :: insByWeight x ys

/-- Model of `self._codeDict[code].sort(key=lambda item: item["weight"], reverse=True)`. -/
def sortByWeightDesc (l : List CodeUnit) : List CodeUnit :=
  l.foldr insByWeight []

/-- Model of `CalcModel.query`: English results carry `range: True` verbatim;
non-English results are weight-sorted and flagged by charset
membership of the clean word. -/
def query (englishDict codeDict : List (String × List CodeUnit))
    (charset : List String) (code : String) (isEnglish : Bool) :
    List CodeTableUnit :=
  if code.length == 0 then []
  else if isEnglish then
    match alistGet englishDict code with
    | some items => items.map (fun i => ⟨i.word, i.weight, i.source, true⟩)
    | none => []
  else
    match alistGet codeDict code with
    | some items =>
      (sortByWeightDesc items).map
        (fun i => ⟨i.word, i.weight, i.source,
          getRange charset (getCleanWord i.word)⟩)
    | none => []

/-! ## Rewrite engine (`CalcModel._writeMain`)

The file side of `_writeMain` is abstracted to line lists: the input is
`readFile(mainFile, False)` (the file's lines, endings stripped) and
the output is `writeContent` (each element written back followed by
`"\n"`).  The pinyin/pinyin-tip append-only side effects touch other
files and are not modelled. -/

/-- The in-flight state of the `_writeMain` line loop. -/
structure WMState where
  cols : ColumnsModel
  cache : List CacheUnit
  del : List WordTableUnit
  out : List String
deriving DecidableEq, Repr

/-- One original line of the `_writeMain` loop: comments and header
lines are copied verbatim, short rows are copied verbatim, matched
rows are re-emitted with the cached weight unless an exact-triple
delete also matches, unmatched rows are dropped on an exact-triple
delete of the on-disk weight and copied verbatim otherwise. -/
def writeMainLine (st : WMState) (line : String) : WMState :=
  let item := pyStrip line
  if strStartsWith item "#" then { st with out := st.out ++ [line] }
  else if !st.cols.isCompleted then
    { st with out := st.out ++ [line], cols := lineHandler st.cols item }
  else
    let fields := splitTab item
    if fields.length < 3 then { st with out := st.out ++ [line] }
    else
      let word := safeGet fields st.cols.dict.text ""
      let code := safeGet fields st.cols.dict.code ""
      let weight := safeGet fields st.cols.dict.weight "0"
      match cacheFind st.cache word code with
      | (some cacheItem, cache') =>
        let r := delFind st.del word code cacheItem.weight
        let row := formatRow st.cols word code cacheItem.weight.pyStr
        if r.1 then { st with cache := cache', del := r.2 }
        else { st with cache := cache', del := r.2, out := st.out ++ [row] }
      | (none, _) =>
        let r := delFind st.del word code (.str weight)
        if r.1 then { st with del := r.2 }
        else { st with out := st.out ++ [line] }

/-- The trailing new-row phase of `_writeMain`: each entry left in the
cache list is appended as a fresh row unless an exact-triple delete
matches it. -/
def writeNewRows (cols : ColumnsModel) :
    List CacheUnit → List WordTableUnit → List String → List String
  | [], _, out => out
  | item :: rest, del, out =>
    let r := delFind del item.word item.code item.weight
    if r.1 then writeNewRows cols rest r.2 out
    else
      writeNewRows cols rest r.2
        (out ++ [formatRow cols item.word item.code item.weight.pyStr])

/-- Model of `CalcModel._writeMain` as a function from the original file lines
and the staged caches to the rewritten file lines.  The cache list is
first put through the `CacheList` constructor (`_processList`); the
delete list is used as-is. -/
def writeMain (lines : List String) (tigressCached : List CacheUnit)
    (tigressDeleteCached : List WordTableUnit) : List String :=
  let st :=
    lines.foldl writeMainLine
      ⟨ColumnsModel.init, processList tigressCached, tigressDeleteCached, []⟩
  writeNewRows st.cols st.cache st.del st.out

/-! ## Basic lemmas -/

theorem alistGet_alistSet {β : Type} (m : List (String × β)) (k k' : String)
    (v : β) :
    alistGet (alistSet m k v) k' =
      if k == k' then some v else alistGet m k' := by
  induction m with
  | nil =>
    simp [alistGet, alistSet]
  | cons p rest ih =>
    obtain ⟨k0, v0⟩ := p
    by_cases h0 : k0 = k
    · subst h0
      by_cases h1 : k0 = k'
      · subst h1
        simp [alistGet, alistSet]
      · simp [alistGet, alistSet, h1]
    · by_cases h1 : k0 = k'
      · subst h1
        simp [alistGet, alistSet, h0, Ne.symm h0]
      · simp [alistGet, alistSet, h0, h1, ih]

theorem cacheFind_nil (word code : String) :
    cacheFind [] word code = (none, []) := rfl

theorem delFind_nil (word code : String) (w : WVal) :
    delFind [] word code w = (false, []) := rfl

/-! ## C1: empty-cache rewrite round-trip -/

theorem writeMainLine_empty (st : WMState) (line : String)
    (h1 : st.cache = []) (h2 : st.del = []) :
    (writeMainLine st line).cache = [] ∧ (writeMainLine st line).del = [] ∧
      (writeMainLine st line).out = st.out ++ [line] := by
  unfold writeMainLine
  rw [h1, h2]
  simp only [cacheFind_nil, delFind_nil]
  repeat' split
  all_goals simp_all

theorem foldl_writeMainLine_empty (lines : List String) (st : WMState)
    (h1 : st.cache = []) (h2 : st.del = []) :
    (lines.foldl writeMainLine st).cache = [] ∧
      (lines.foldl writeMainLine st).del = [] ∧
      (lines.foldl writeMainLine st).out = st.out ++ lines := by
  induction lines generalizing st with
  | nil => simpa using ⟨h1, h2⟩
  | cons l ls ih =>
    obtain ⟨e1, e2, e3⟩ := writeMainLine_empty st l h1 h2
    obtain ⟨f1, f2, f3⟩ := ih (writeMainLine st l) e1 e2
    refine ⟨f1, f2, ?_⟩
    simp [List.foldl_cons, f3, e3]

/-- C1.  Rewriting a main-table file with an empty cache list and an
empty delete-cache list reproduces the original line sequence
unchanged: comments, header lines, malformed rows, and body rows are
all emitted verbatim, and nothing is appended. -/
theorem writeMain_empty_cache_roundtrip (lines : List String) :
    writeMain lines [] [] = lines := by
  obtain ⟨e1, e2, e3⟩ :=
    foldl_writeMainLine_empty lines
      ⟨ColumnsModel.init, processList [], [], []⟩ rfl rfl
  simp only [writeMain]
  rw [e1]
  simp only [writeNewRows]
  simpa using e3

/-! ## C6: edit-then-delete precedence in the rewrite -/

/-- The schema state after a header consisting of the sole terminator
`...`: default ranks `{text: 0, code: 1, weight: 2}`. -/
def defaultColumns : ColumnsModel :=
  ⟨⟨0, 1, 2⟩, [.text, .code, .weight], true, false⟩

theorem writeMainLine_dots (cache : List CacheUnit)
    (del : List WordTableUnit) (out : List String) :
    writeMainLine ⟨ColumnsModel.init, cache, del, out⟩ "..." =
      ⟨defaultColumns, cache, del, out ++ ["..."]⟩ := by
  have h1 : pyStrip "..." = "..." := by decide
  have h2 : strStartsWith "..." "#" = false := by decide
  have h3 : lineHandler ColumnsModel.init "..." = defaultColumns := by decide
  have h4 : ColumnsModel.init.isCompleted = false := rfl
  simp only [writeMainLine, h1, h2, h3, h4, Bool.false_eq_true, if_false,
    Bool.not_false, if_true]

theorem writeMainLine_edit_delete (w c fw : String) (W2 : WVal) (src : String)
    (line : String) (out : List String)
    (h1 : strStartsWith (pyStrip line) "#" = false)
    (h2 : splitTab (pyStrip line) = [w, c, fw]) :
    writeMainLine ⟨defaultColumns, [⟨w, c, W2⟩], [⟨w, c, W2, src⟩], out⟩ line =
      ⟨defaultColumns, [], [], out⟩ := by
  simp [writeMainLine, h1, h2, defaultColumns, safeGet, cacheFind, delFind]

/-- C6.  A body row whose `(word, code)` is staged in the cache list
with new weight `W2` and whose exact triple `(word, code, W2)` is also
staged in the delete-cache list is omitted from the rewrite output
entirely: the edit-then-delete wins over the edit, and the consumed
cache entry is not re-appended as a new row either. -/
theorem writeMain_edit_then_delete (w c fw : String) (W2 : WVal)
    (src : String) (line : String) (rest : List String)
    (h1 : strStartsWith (pyStrip line) "#" = false)
    (h2 : splitTab (pyStrip line) = [w, c, fw]) :
    writeMain ("..." :: line :: rest) [⟨w, c, W2⟩] [⟨w, c, W2, src⟩] =
      "..." :: rest := by
  have hp : processList [⟨w, c, W2⟩] = [(⟨w, c, W2⟩ : CacheUnit)] := rfl
  simp only [writeMain, hp, List.foldl_cons]
  rw [writeMainLine_dots, List.nil_append,
    writeMainLine_edit_delete w c fw W2 src line _ h1 h2]
  obtain ⟨e1, e2, e3⟩ :=
    foldl_writeMainLine_empty rest ⟨defaultColumns, [], [], ["..."]⟩ rfl rfl
  rw [e1]
  simp only [writeNewRows]
  simpa using e3

/-- Witness for C6: the concrete row `x⟨TAB⟩ab⟨TAB⟩10`, staged with new
weight 20 and deleted at weight 20, vanishes from the output. -/
theorem writeMain_edit_then_delete_witness :
    writeMain ["...", "x\tab\t10"]
        [⟨"x", "ab", .int 20⟩] [⟨"x", "ab", .int 20, "tigress"⟩] =
      ["..."] :=
  writeMain_edit_then_delete "x" "ab" "10" (.int 20) "tigress" "x\tab\t10" []
    (by decide) (by decide)

/-! ## C10: exact-triple matching of the delete-cache find -/

/-- C10.  `DeleteCacheList.find` succeeds exactly when some stored
entry has equal word, equal code, and a weight with the same string
representation; on success exactly the first matching entry is
removed, and on failure the list is returned unchanged. -/
theorem delFind_spec (l : List WordTableUnit) (word code : String)
    (weight : WVal) :
    ((delFind l word code weight).1 = true ↔
      ∃ x ∈ l, x.word = word ∧ x.code = code ∧
        x.weight.pyStr = weight.pyStr) ∧
    ((delFind l word code weight).1 = false →
      (delFind l word code weight).2 = l) ∧
    ((delFind l word code weight).1 = true →
      ∃ l₁ x l₂, l = l₁ ++ x :: l₂ ∧
        (∀ y ∈ l₁,
          ¬(y.word = word ∧ y.code = code ∧ y.weight.pyStr = weight.pyStr)) ∧
        x.word = word ∧ x.code = code ∧ x.weight.pyStr = weight.pyStr ∧
        (delFind l word code weight).2 = l₁ ++ l₂) := by
  induction l with
  | nil => simp [delFind]
  | cons x xs ih =>
    by_cases hb :
        (x.word == word && x.code == code &&
          x.weight.pyStr == weight.pyStr) = true
    · have hx : x.word = word ∧ x.code = code ∧
          x.weight.pyStr = weight.pyStr := by
        simpa [Bool.and_eq_true, and_assoc] using hb
      have hred : delFind (x :: xs) word code weight = (true, xs) := by
        simp [delFind, hb]
      rw [hred]
      refine ⟨⟨fun _ => ⟨x, List.mem_cons_self x xs, hx⟩, fun _ => rfl⟩,
        by simp, fun _ => ⟨[], x, xs, rfl, by simp, hx.1, hx.2.1, hx.2.2, rfl⟩⟩
    · have hx : ¬(x.word = word ∧ x.code = code ∧
          x.weight.pyStr = weight.pyStr) := by
        intro hcon
        exact hb (by simp [hcon.1, hcon.2.1, hcon.2.2])
      have hred : delFind (x :: xs) word code weight =
          ((delFind xs word code weight).1,
            x :: (delFind xs word code weight).2) := by
        simp [delFind, hb]
      obtain ⟨i1, i2, i3⟩ := ih
      rw [hred]
      refine ⟨?_, ?_, ?_⟩
      · rw [i1]
        constructor
        · rintro ⟨y, hy, hp⟩
          exact ⟨y, List.mem_cons_of_mem x hy, hp⟩
        · rintro ⟨y, hy, hp⟩
          rcases List.mem_cons.mp hy with hy | hy
          · exact absurd hp (hy ▸ hx)
          · exact ⟨y, hy, hp⟩
      · intro hfail
        rw [i2 hfail]
      · intro hsucc
        obtain ⟨l₁, y, l₂, he, hnone, p1, p2, p3, hres⟩ := i3 hsucc
        refine ⟨x :: l₁, y, l₂, by simp [he], ?_, p1, p2, p3, by simp [hres]⟩
        intro z hz
        rcases List.mem_cons.mp hz with hz | hz
        · exact hz ▸ hx
        · exact hnone z hz

/-- Witness for C10: an integer weight 10 string-matches the parsed
file weight `"10"` (and removes the entry), while weight `"11"` fails
to match and leaves the list unchanged. -/
theorem delFind_spec_witness :
    (delFind [⟨"w", "c", .int 10, "s"⟩] "w" "c" (.str "10")).1 = true ∧
      (delFind [⟨"w", "c", .int 10, "s"⟩] "w" "c" (.str "11")).2 =
        [⟨"w", "c", .int 10, "s"⟩] :=
  ⟨(delFind_spec [⟨"w", "c", .int 10, "s"⟩] "w" "c" (.str "10")).1.mpr
      ⟨⟨"w", "c", .int 10, "s"⟩, by decide, by decide, by decide, by decide⟩,
    (delFind_spec [⟨"w", "c", .int 10, "s"⟩] "w" "c" (.str "11")).2.1
      (by decide)⟩

/-! ## C9: English query results are always flagged common-range -/

/-- C9.  Every result of `query(code, isEnglish=True)` carries
`range = true`, unconditionally. -/
theorem query_english_range (englishDict codeDict : List (String × List CodeUnit))
    (charset : List String) (code : String) (r : CodeTableUnit)
    (h : r ∈ query englishDict codeDict charset code true) :
    r.range = true := by
  simp only [query, if_true] at h
  split at h
  · exact absurd h (List.not_mem_nil r)
  · split at h
    · obtain ⟨i, _, rfl⟩ := List.mem_map.mp h
      rfl
    · exact absurd h (List.not_mem_nil r)

/-- Witness for C9 at a concrete English dictionary and code. -/
theorem query_english_range_witness :
    (⟨"w", 3, "eng", true⟩ : CodeTableUnit) ∈
        query [("ab", [⟨"w", 3, "eng"⟩])] [] [] "ab" true ∧
      (⟨"w", 3, "eng", true⟩ : CodeTableUnit).range = true :=
  ⟨by decide, query_english_range [("ab", [⟨"w", 3, "eng"⟩])] [] [] "ab"
      ⟨"w", 3, "eng", true⟩ (by decide)⟩

/-! ## C5: the 0/255 default-weight rule of `encode` and `simple` -/

theorem weightRuleAux (isEng : Bool) (newCode : String)
    (codeDict : List (String × List CodeUnit)) :
    ((if !isEng && newCode != "" && (alistGet codeDict newCode).isNone then
        (255 : Int) else 0) = 0 ↔
      (isEng = true ∨ newCode = "" ∨
        (alistGet codeDict newCode).isSome = true)) ∧
    ((if !isEng && newCode != "" && (alistGet codeDict newCode).isNone then
        (255 : Int) else 0) ≠ 0 →
      (if !isEng && newCode != "" && (alistGet codeDict newCode).isNone then
        (255 : Int) else 0) = 255) := by
  cases halist : alistGet codeDict newCode <;>
    by_cases hE : isEng = true <;>
    by_cases hC : newCode = "" <;>
    simp_all

/-- C5.  `encode` (and likewise `simple`) returns default weight `0`
exactly when the word is English, the derived code is empty, or the
code is already present in the duplicate-entry index; in every other
case the sentinel weight is `255`. -/
theorem encode_weight_rule (characterDict : List (String × String))
    (codeDict : List (String × List CodeUnit)) (charset : List String)
    (word : String) :
    ((encode characterDict codeDict charset word).weight = 0 ↔
      ((encode characterDict codeDict charset word).isEnglish = true ∨
        (encode characterDict codeDict charset word).code = "" ∨
        (alistGet codeDict
          (encode characterDict codeDict charset word).code).isSome = true)) ∧
    ((encode characterDict codeDict charset word).weight ≠ 0 →
      (encode characterDict codeDict charset word).weight = 255) ∧
    ((simple characterDict codeDict charset word).weight = 0 ↔
      ((simple characterDict codeDict charset word).isEnglish = true ∨
        (simple characterDict codeDict charset word).code = "" ∨
        (alistGet codeDict
          (simple characterDict codeDict charset word).code).isSome = true)) ∧
    ((simple characterDict codeDict charset word).weight ≠ 0 →
      (simple characterDict codeDict charset word).weight = 255) := by
  by_cases h0 : ((getCleanWord word).length == 0) = true
  · simp [encode, simple, h0]
  · have he :
        encode characterDict codeDict charset word =
          ⟨getCleanWord word, isPureEnglish (getCleanWord word),
            if isPureEnglish (getCleanWord word) then getCleanWord word
            else encodeCode characterDict (getCleanWord word).data,
            if !isPureEnglish (getCleanWord word) &&
                (if isPureEnglish (getCleanWord word) then getCleanWord word
                  else encodeCode characterDict (getCleanWord word).data) != "" &&
                (alistGet codeDict
                  (if isPureEnglish (getCleanWord word) then getCleanWord word
                    else encodeCode characterDict
                      (getCleanWord word).data)).isNone then 255 else 0,
            getRange charset (getCleanWord word)⟩ := by
      simp [encode, h0]
    have hs :
        simple characterDict codeDict charset word =
          ⟨getCleanWord word, isPureEnglish (getCleanWord word),
            if isPureEnglish (getCleanWord word) then pyLower (getCleanWord word)
            else simpleCode characterDict (getCleanWord word).data,
            if !isPureEnglish (getCleanWord word) &&
                (if isPureEnglish (getCleanWord word) then
                    pyLower (getCleanWord word)
                  else simpleCode characterDict (getCleanWord word).data) != "" &&
                (alistGet codeDict
                  (if isPureEnglish (getCleanWord word) then
                      pyLower (getCleanWord word)
                    else simpleCode characterDict
                      (getCleanWord word).data)).isNone then 255 else 0,
            getRange charset (getCleanWord word)⟩ := by
      simp [simple, h0]
    rw [he, hs]
    exact ⟨(weightRuleAux _ _ _).1, (weightRuleAux _ _ _).2,
      (weightRuleAux _ _ _).1, (weightRuleAux _ _ _).2⟩

/-- Witness for C5: a known two-character word over an empty index gets
the sentinel weight 255. -/
theorem encode_weight_rule_witness :
    (encode [("你", "nii3"), ("好", "hao1")] [] [] "你好").weight = 255 :=
  (encode_weight_rule [("你", "nii3"), ("好", "hao1")] [] [] "你好").2.1
    (by decide)

/-! ## C4: the per-length fragment rule of the encoder -/

/-- C4.  The non-English code is the concatenation of per-character
fragments: up to 4 leading code characters for a single character,
2+2 for two characters, 1+1+2 for three, and 1+1+1+1 over characters
1, 2, 3 and the last one for length ≥ 4; a fragment never exceeds its
nominal size, and an unknown character contributes the empty
fragment. -/
theorem encode_fragment_rule (characterDict : List (String × String)) :
    (∀ c, encodeCode characterDict [c] = getCode characterDict c 4) ∧
    (∀ c1 c2, encodeCode characterDict [c1, c2] =
      getCode characterDict c1 2 ++ getCode characterDict c2 2) ∧
    (∀ c1 c2 c3, encodeCode characterDict [c1, c2, c3] =
      getCode characterDict c1 1 ++ getCode characterDict c2 1 ++
        getCode characterDict c3 2) ∧
    (∀ c1 c2 c3 c4 rest,
      encodeCode characterDict (c1 :: c2 :: c3 :: c4 :: rest) =
        getCode characterDict c1 1 ++ getCode characterDict c2 1 ++
          getCode characterDict c3 1 ++
          getCode characterDict (rest.getLastD c4) 1) ∧
    (∀ c n, (getCode characterDict c n).length ≤ n) ∧
    (∀ c n, alistGet characterDict (String.mk [c]) = none →
      getCode characterDict c n = "") := by
  refine ⟨fun c => rfl, fun c1 c2 => rfl, fun c1 c2 c3 => rfl,
    fun c1 c2 c3 c4 rest => rfl, fun c n => ?_, fun c n h => ?_⟩
  · unfold getCode
    cases halist : alistGet characterDict (String.mk [c]) with
    | none => simp [String.length]
    | some s =>
      simp only [strTake, String.length]
      simp [min_le_left n s.data.length]
  · unfold getCode
    rw [h]

/-- Witness for C4: the §8 scenario `你(nii3) 好(hao1) → 你好 = niha`,
plus an unknown character yielding the empty fragment. -/
theorem encode_fragment_rule_witness :
    encodeCode [("你", "nii3"), ("好", "hao1")] ['你', '好'] = "niha" ∧
      getCode [("你", "nii3")] 'z' 2 = "" :=
  ⟨((encode_fragment_rule [("你", "nii3"), ("好", "hao1")]).2.1 '你' '好').trans
      (by decide),
    (encode_fragment_rule [("你", "nii3")]).2.2.2.2.2 'z' 2 (by decide)⟩

/-! ## C8: letter seeding of the character-code index -/

/-- C8 counterexample.  After seeding, the uppercase letter `A` is
mapped to the lowercase code `"a"`, not to itself: the claim that every
letter is mapped to itself fails at `'A'`. -/
theorem seedLetters_uppercase_not_identity :
    alistGet (seedLetters []) "A" ≠ some "A" ∧
      alistGet (seedLetters []) "A" = some "a" := by
  decide

theorem seedFold_get_untouched (L : List Char) (d : List (String × String))
    (k : String)
    (h : ∀ c ∈ L, k ≠ String.mk [c] ∧ k ≠ String.mk [c.toUpper]) :
    alistGet (L.foldl seedStep d) k = alistGet d k := by
  induction L generalizing d with
  | nil => rfl
  | cons c cs ih =>
    rw [List.foldl_cons, ih _ (fun c' hc' => h c' (List.mem_cons_of_mem c hc'))]
    obtain ⟨h1, h2⟩ := h c (List.mem_cons_self c cs)
    unfold seedStep
    rw [alistGet_alistSet, alistGet_alistSet,
      if_neg (by simpa using Ne.symm h2), if_neg (by simpa using Ne.symm h1)]

theorem seedStep_get_lower (d : List (String × String)) (c : Char)
    (hup : String.mk [c.toUpper] ≠ String.mk [c]) :
    alistGet (seedStep d c) (String.mk [c]) = some (String.mk [c]) := by
  unfold seedStep
  rw [alistGet_alistSet, if_neg (by simpa using hup), alistGet_alistSet,
    if_pos (by simp)]

theorem seedStep_get_upper (d : List (String × String)) (c : Char) :
    alistGet (seedStep d c) (String.mk [c.toUpper]) = some (String.mk [c]) := by
  unfold seedStep
  rw [alistGet_alistSet, if_pos (by simp)]

/-- C8 amended.  After the seeding loop, every lowercase ASCII letter
is mapped to itself, and every uppercase ASCII letter is mapped to its
lowercase counterpart (not to itself), regardless of the prior state
of the character-code index. -/
theorem seedLetters_mapping (d : List (String × String)) (c : Char)
    (hc : c ∈ lettersChars) :
    alistGet (seedLetters d) (String.mk [c]) = some (String.mk [c]) ∧
      alistGet (seedLetters d) (String.mk [c.toUpper]) =
        some (String.mk [c]) := by
  have hdistinct : ∀ x ∈ lettersChars, ∀ y ∈ lettersChars, x ≠ y →
      (String.mk [x] ≠ String.mk [y] ∧ String.mk [x] ≠ String.mk [y.toUpper] ∧
        String.mk [x.toUpper] ≠ String.mk [y] ∧
        String.mk [x.toUpper] ≠ String.mk [y.toUpper]) := by decide
  have hup : ∀ x ∈ lettersChars, String.mk [x.toUpper] ≠ String.mk [x] := by
    decide
  have hnodup : lettersChars.Nodup := by decide
  obtain ⟨L1, L2, hL⟩ := List.append_of_mem hc
  have hcL2 : c ∉ L2 := by
    have h2 := hL ▸ hnodup
    exact (List.nodup_cons.mp (List.Nodup.of_append_right h2)).1
  have hmemL2 : ∀ c' ∈ L2, c' ∈ lettersChars := by
    intro c' hc'
    rw [hL]
    exact List.mem_append_right L1 (List.mem_cons_of_mem c hc')
  have hneq : ∀ c' ∈ L2, c ≠ c' := fun c' hc' he => hcL2 (he ▸ hc')
  unfold seedLetters
  rw [hL, List.foldl_append, List.foldl_cons]
  constructor
  · rw [seedFold_get_untouched L2 _ _ (fun c' hc' =>
      ⟨(hdistinct c hc c' (hmemL2 c' hc') (hneq c' hc')).1,
        (hdistinct c hc c' (hmemL2 c' hc') (hneq c' hc')).2.1⟩)]
    exact seedStep_get_lower _ c (hup c hc)
  · rw [seedFold_get_untouched L2 _ _ (fun c' hc' =>
      ⟨(hdistinct c hc c' (hmemL2 c' hc') (hneq c' hc')).2.2.1,
        (hdistinct c hc c' (hmemL2 c' hc') (hneq c' hc')).2.2.2⟩)]
    exact seedStep_get_upper _ c

/-- Witness for C8 amended: at `'a'` over the empty index both lookups
are `"a"`. -/
theorem seedLetters_mapping_witness :
    alistGet (seedLetters []) "a" = some "a" ∧
      alistGet (seedLetters []) "A" = some "a" :=
  seedLetters_mapping [] 'a' (by decide)

/-! ## C3: the duplicate-entry index appends instead of overwriting -/

/-- C3 counterexample.  Feeding the same word twice under the same code
from the same table leaves two entries with an identical
`(word, source)` pair in that code's list — the row is appended, not
overwritten. -/
theorem parseTigress_duplicate_word_source :
    alistGet (parseTigress ["...", "x\tab\t1", "x\tab\t2"] "t"
        TigState.init).codeDict "ab" =
      some [⟨"x", 1, "t"⟩, ⟨"x", 2, "t"⟩] ∧
      ¬((([⟨"x", 1, "t"⟩, ⟨"x", 2, "t"⟩] : List CodeUnit)).map
          (fun e => (e.word, e.source))).Nodup := by
  constructor
  · rfl
  · decide

theorem alistGet_append_single {β : Type} (m : List (String × β))
    (k k' : String) (v : β) :
    alistGet (m ++ [(k, v)]) k' =
      match alistGet m k' with
      | some w => some w
      | none => if k == k' then some v else none := by
  induction m with
  | nil => simp [alistGet]
  | cons p rest ih =>
    obtain ⟨k0, v0⟩ := p
    by_cases h0 : k0 = k'
    · simp [alistGet, h0]
    · simp [alistGet, h0, ih]

/-- C3 amended.  A parsed body row with a nonempty code always appends
its entry at the end of that code's duplicate-entry list (entries with
the same `(word, source)` coexist), and leaves every other code's list
unchanged. -/
theorem tigressRow_appends (st : TigState) (word code : String)
    (weight : Int) (tableName : String) (h : code ≠ "") :
    alistGet (tigressRow st word code weight tableName).codeDict code =
      some ((alistGet st.codeDict code).getD [] ++
        [⟨word, weight, tableName⟩]) ∧
    ∀ c', c' ≠ code →
      alistGet (tigressRow st word code weight tableName).codeDict c' =
        alistGet st.codeDict c' := by
  have hbody :
      (tigressRow st word code weight tableName).codeDict =
        match alistGet st.codeDict code with
        | some l =>
          alistSet st.codeDict code (l ++ [⟨word, weight, tableName⟩])
        | none => st.codeDict ++ [(code, [⟨word, weight, tableName⟩])] := by
    unfold tigressRow
    cases alistGet st.codeDict code <;> simp [h]
  rw [hbody]
  cases hget : alistGet st.codeDict code with
  | some l =>
    refine ⟨?_, ?_⟩
    · rw [alistGet_alistSet, if_pos (by simp)]
      rfl
    · intro c' hc'
      rw [alistGet_alistSet, if_neg (by simpa using Ne.symm hc')]
  | none =>
    refine ⟨?_, ?_⟩
    · rw [alistGet_append_single, hget]
      simp
    · intro c' hc'
      rw [alistGet_append_single]
      cases hget' : alistGet st.codeDict c' with
      | some w => rfl
      | none => simp [hc', Ne.symm hc']

/-- Witness for C3 amended: appending a second `("x", "t")` entry under
code `"ab"`. -/
theorem tigressRow_appends_witness :
    alistGet (tigressRow ⟨[], [("ab", [⟨"x", 1, "t"⟩])]⟩ "x" "ab" 2
        "t").codeDict "ab" =
      some [⟨"x", 1, "t"⟩, ⟨"x", 2, "t"⟩] :=
  ((tigressRow_appends ⟨[], [("ab", [⟨"x", 1, "t"⟩])]⟩ "x" "ab" 2 "t"
      (by decide)).1).trans (by decide)

/-! ## C7: the three-character short-code conflict rule -/

/-- C7 counterexample.  Two common-range entries under a 3-letter code
with no 3-character word: the claimed count rule (`length-3 entries
plus common-range entries exceeds one`) holds, yet the checker reports
no conflict, because its common-range disjunct also requires at least
one 3-character word. -/
theorem shortThree_common_only_not_reported :
    1 < (([⟨"x", 1, "s"⟩, ⟨"y", 2, "s"⟩] : List CodeUnit).countP
          (fun c => (getCleanWord c.word).length == 3) +
        ([⟨"x", 1, "s"⟩, ⟨"y", 2, "s"⟩] : List CodeUnit).countP
          (fun c => getRange ["x", "y"] (getCleanWord c.word))) ∧
      conflictCodes [("abc", [⟨"x", 1, "s"⟩, ⟨"y", 2, "s"⟩])] ["x", "y"] =
        [] := by
  decide

theorem shortThreeScan_fold (charset : List String) (entries : List CodeUnit)
    (n : Nat) (b : Bool) :
    entries.foldl
      (fun acc c =>
        let w := getCleanWord c.word
        if w.length == 3 then (acc.1 + 1, acc.2)
        else if getRange charset w then (acc.1, true)
        else acc)
      (n, b) =
    (n + entries.countP (fun c => (getCleanWord c.word).length == 3),
      b || entries.any (fun c =>
        (getCleanWord c.word).length != 3 &&
          getRange charset (getCleanWord c.word))) := by
  induction entries generalizing n b with
  | nil => simp
  | cons e es ih =>
    by_cases h3 : ((getCleanWord e.word).length == 3) = true
    · simp only [List.foldl_cons, h3, if_true, ih, List.countP_cons,
        List.any_cons, Prod.mk.injEq]
      exact ⟨by omega, by simp [bne, h3]⟩
    · simp only [Bool.not_eq_true] at h3
      by_cases hr : getRange charset (getCleanWord e.word) = true
      · simp only [List.foldl_cons, h3, Bool.false_eq_true, if_false, hr,
          if_true, ih, List.countP_cons, List.any_cons, Prod.mk.injEq]
        exact ⟨by simp [h3], by simp [bne, h3, hr]⟩
      · simp only [Bool.not_eq_true] at hr
        simp only [List.foldl_cons, h3, Bool.false_eq_true, if_false, hr,
          ih, List.countP_cons, List.any_cons, Prod.mk.injEq]
        exact ⟨by simp [h3], by simp [bne, h3, hr]⟩

/-- C7 amended.  For a code of length 3, `checkShortThreeWords`
reports a conflict exactly when more than one entry has a
3-character clean word, or when at least one entry has a 3-character
clean word and some other entry's clean word lies in the common
range.  (Common-range entries alone, without any 3-character word,
are not reported.)  In particular two distinct 3-character words under
one code are reported. -/
theorem shortThreeConflict_iff (charset : List String)
    (entries : List CodeUnit) :
    shortThreeConflict charset entries = true ↔
      (1 < entries.countP (fun c => (getCleanWord c.word).length == 3) ∨
        (0 < entries.countP (fun c => (getCleanWord c.word).length == 3) ∧
          ∃ e ∈ entries, (getCleanWord e.word).length ≠ 3 ∧
            getRange charset (getCleanWord e.word) = true)) := by
  unfold shortThreeConflict shortThreeScan
  rw [shortThreeScan_fold]
  simp [List.any_eq_true, and_comm]

/-! ## C2: order lemmas for the key comparator -/

theorem charToNat_inj {a b : Char} (h : a.toNat = b.toNat) : a = b :=
  Char.eq_of_val_eq (UInt32.toNat.inj h)

theorem clLt_trans : ∀ a b c : List Char,
    clLt a b = true → clLt b c = true → clLt a c = true := by
  intro a
  induction a with
  | nil =>
    intro b c hab hbc
    cases b with
    | nil => simp [clLt] at hab
    | cons y bs =>
      cases c with
      | nil => simp [clLt] at hbc
      | cons z cs => simp [clLt]
  | cons x as ih =>
    intro b c hab hbc
    cases b with
    | nil => simp [clLt] at hab
    | cons y bs =>
      cases c with
      | nil => simp [clLt] at hbc
      | cons z cs =>
        simp only [clLt] at hab hbc ⊢
        by_cases h1 : x.toNat < y.toNat
        · by_cases h2 : y.toNat < z.toNat
          · simp [show x.toNat < z.toNat by omega]
          · by_cases h2b : z.toNat < y.toNat
            · simp [h2, h2b] at hbc
            · simp [show x.toNat < z.toNat by omega]
        · by_cases h1b : y.toNat < x.toNat
          · simp [h1, h1b] at hab
          · by_cases h2 : y.toNat < z.toNat
            · simp [show x.toNat < z.toNat by omega]
            · by_cases h2b : z.toNat < y.toNat
              · simp [h2, h2b] at hbc
              · simp only [h1, if_false, h1b] at hab
                simp only [h2, if_false, h2b] at hbc
                simp [show ¬x.toNat < z.toNat by omega,
                  show ¬z.toNat < x.toNat by omega]
                exact ih bs cs hab hbc

theorem clLt_connex : ∀ a b : List Char,
    a ≠ b → clLt a b = true ∨ clLt b a = true := by
  intro a
  induction a with
  | nil =>
    intro b hne
    cases b with
    | nil => exact absurd rfl hne
    | cons y bs => left; simp [clLt]
  | cons x as ih =>
    intro b hne
    cases b with
    | nil => right; simp [clLt]
    | cons y bs =>
      by_cases h1 : x.toNat < y.toNat
      · left; simp [clLt, h1]
      · by_cases h2 : y.toNat < x.toNat
        · right; simp [clLt, h2]
        · have hxy : x = y := charToNat_inj (by omega)
          subst hxy
          have has : as ≠ bs := fun h => hne (by rw [h])
          rcases ih bs has with h | h
          · left; simp [clLt, h]
          · right; simp [clLt, h]

theorem strLtB_trans {a b c : String} (h1 : strLtB a b = true)
    (h2 : strLtB b c = true) : strLtB a c = true :=
  clLt_trans a.data b.data c.data h1 h2

theorem strLtB_connex {a b : String} (h : a ≠ b) :
    strLtB a b = true ∨ strLtB b a = true :=
  clLt_connex a.data b.data fun he => h (String.ext he)

theorem keyLtB_trans {a b c : String × String} (h1 : keyLtB a b = true)
    (h2 : keyLtB b c = true) : keyLtB a c = true := by
  simp only [keyLtB, Bool.or_eq_true, Bool.and_eq_true, beq_iff_eq] at h1 h2 ⊢
  rcases h1 with h1 | ⟨h1e, h1c⟩
  · rcases h2 with h2 | ⟨h2e, h2c⟩
    · exact Or.inl (strLtB_trans h1 h2)
    · exact Or.inl (h2e ▸ h1)
  · rcases h2 with h2 | ⟨h2e, h2c⟩
    · exact Or.inl (h1e ▸ h2)
    · exact Or.inr ⟨h1e.trans h2e, strLtB_trans h1c h2c⟩

theorem keyLeB_trans {a b c : String × String} (h1 : keyLeB a b = true)
    (h2 : keyLeB b c = true) : keyLeB a c = true := by
  simp only [keyLeB, Bool.or_eq_true, beq_iff_eq] at h1 h2 ⊢
  rcases h1 with h1 | h1
  · rcases h2 with h2 | h2
    · exact Or.inl (keyLtB_trans h1 h2)
    · exact Or.inl (h2 ▸ h1)
  · rcases h2 with h2 | h2
    · exact Or.inl (h1 ▸ h2)
    · exact Or.inr (h1.trans h2)

theorem keyLtB_false_keyLeB {a b : String × String}
    (h : keyLtB a b = false) : keyLeB b a = true := by
  simp only [keyLtB, Bool.or_eq_false_iff, Bool.and_eq_false_iff,
    beq_eq_false_iff_ne, ne_eq] at h
  obtain ⟨hlt, hor⟩ := h
  simp only [keyLeB, keyLtB, Bool.or_eq_true, Bool.and_eq_true, beq_iff_eq]
  by_cases he1 : a.1 = b.1
  · rcases hor with hne | hlt2
    · exact absurd he1 hne
    · by_cases he2 : a.2 = b.2
      · right
        rw [Prod.ext_iff]
        exact ⟨he1.symm, he2.symm⟩
      · rcases strLtB_connex he2 with hc | hc
        · rw [hc] at hlt2
          simp at hlt2
        · exact Or.inl (Or.inr ⟨he1.symm, hc⟩)
  · rcases strLtB_connex he1 with hc | hc
    · rw [hc] at hlt
      simp at hlt
    · exact Or.inl (Or.inl hc)

theorem keyLtB_keyLeB {a b : String × String} (h : keyLtB a b = true) :
    keyLeB a b = true := by
  simp [keyLeB, h]

/-! ## C2: insertion-sort lemmas -/

theorem perm_insEntry (x : (String × String) × CacheUnit)
    (l : List ((String × String) × CacheUnit)) :
    List.Perm (insEntry x l) (x :: l) := by
  induction l with
  | nil => exact List.Perm.refl _
  | cons y ys ih =>
    unfold insEntry
    split
    · exact List.Perm.refl _
    · exact (List.Perm.cons y ih).trans (List.Perm.swap x y ys)

theorem perm_sortEntries (l : List ((String × String) × CacheUnit)) :
    List.Perm (sortEntries l) l := by
  induction l with
  | nil => exact List.Perm.refl _
  | cons x xs ih =>
    exact (perm_insEntry x (sortEntries xs)).trans (List.Perm.cons x ih)

theorem pairwise_insEntry (x : (String × String) × CacheUnit)
    (l : List ((String × String) × CacheUnit))
    (h : l.Pairwise (fun p q => keyLeB p.1 q.1 = true)) :
    (insEntry x l).Pairwise (fun p q => keyLeB p.1 q.1 = true) := by
  induction l with
  | nil => simp [insEntry]
  | cons y ys ih =>
    rw [List.pairwise_cons] at h
    obtain ⟨hy, hys⟩ := h
    unfold insEntry
    split
    · rename_i hxy
      rw [List.pairwise_cons]
      refine ⟨?_, List.pairwise_cons.mpr ⟨hy, hys⟩⟩
      intro z hz
      rcases List.mem_cons.mp hz with rfl | hz
      · exact keyLtB_keyLeB hxy
      · exact keyLeB_trans (keyLtB_keyLeB hxy) (hy z hz)
    · rename_i hxy
      rw [List.pairwise_cons]
      refine ⟨?_, ih hys⟩
      intro z hz
      have hz2 : z ∈ x :: ys := (perm_insEntry x ys).mem_iff.mp hz
      rcases List.mem_cons.mp hz2 with rfl | hz2
      · exact keyLtB_false_keyLeB ((Bool.not_eq_true _) ▸ hxy)
      · exact hy z hz2

theorem pairwise_sortEntries (l : List ((String × String) × CacheUnit)) :
    (sortEntries l).Pairwise (fun p q => keyLeB p.1 q.1 = true) := by
  induction l with
  | nil => exact List.Pairwise.nil
  | cons x xs ih => exact pairwise_insEntry x (sortEntries xs) ih

/-! ## C2: characterization of the backward deduplication -/

/-- Lookup by key in the `tempDict` association list. -/
def kget : List ((String × String) × CacheUnit) → (String × String) →
    Option CacheUnit
  | [], _ => none
  | p :: rest, k => if p.1 == k then some p.2 else kget rest k

theorem kget_isSome_iff (m : List ((String × String) × CacheUnit))
    (k : String × String) :
    (kget m k).isSome = true ↔ ∃ p ∈ m, p.1 = k := by
  induction m with
  | nil => simp [kget]
  | cons p rest ih =>
    by_cases hp : p.1 = k
    · simp [kget, hp]
    · simp only [kget, beq_iff_eq, hp, if_false, ih, List.mem_cons]
      constructor
      · rintro ⟨q, hq, he⟩
        exact ⟨q, Or.inr hq, he⟩
      · rintro ⟨q, rfl | hq, he⟩
        · exact absurd he hp
        · exact ⟨q, hq, he⟩

theorem any_key_iff_kget (m : List ((String × String) × CacheUnit))
    (k : String × String) :
    m.any (fun p => p.1 == k) = true ↔ (kget m k).isSome = true := by
  rw [kget_isSome_iff]
  simp

theorem kget_map_update (m : List ((String × String) × CacheUnit))
    (ck : String × String) (w : WVal) (k : String × String) :
    kget (m.map (fun p =>
        if p.1 == ck then (p.1, { p.2 with weight := w }) else p)) k =
      if k = ck then
        (kget m k).map (fun v => { v with weight := w })
      else kget m k := by
  induction m with
  | nil => simp [kget]
  | cons p rest ih =>
    by_cases hpck : p.1 = ck <;> by_cases hpk : p.1 = k
    · have hk : k = ck := by rw [← hpk, hpck]
      simp [kget, hpck, hpk, hk]
    · have hk : ¬k = ck := fun h => hpk (by rw [hpck, h])
      simp only [kget, beq_iff_eq] at ih ⊢
      simp only [hk, if_false] at ih
      simp [kget, hpck, hpk, hk, Ne.symm hk, ih]
    · have hk : ¬k = ck := fun h => hpck (by rw [hpk, h])
      simp [kget, hpck, hpk, hk, Ne.symm hk]
    · simp only [kget, beq_iff_eq] at ih ⊢
      simp [kget, hpck, hpk, ih]

theorem kget_append_single (m : List ((String × String) × CacheUnit))
    (ck k : String × String) (u : CacheUnit) :
    kget (m ++ [(ck, u)]) k =
      match kget m k with
      | some v => some v
      | none => if ck == k then some u else none := by
  induction m with
  | nil => simp [kget]
  | cons p rest ih =>
    by_cases hp : p.1 = k
    · simp [kget, hp]
    · simp [kget, hp, ih]

theorem kget_dedupStep (m : List ((String × String) × CacheUnit))
    (u : CacheUnit) (k : String × String) :
    kget (dedupStep m u) k =
      if k = cacheKey u then
        match kget m k with
        | some w => some { w with weight := u.weight }
        | none => some u
      else kget m k := by
  unfold dedupStep
  by_cases hany : m.any (fun p => p.1 == cacheKey u) = true
  · rw [if_pos hany, kget_map_update]
    by_cases hk : k = cacheKey u
    · rw [if_pos hk, if_pos hk]
      have hsome : (kget m k).isSome = true := by
        rw [← any_key_iff_kget]
        rw [hk]
        exact hany
      obtain ⟨v, hv⟩ := Option.isSome_iff_exists.mp hsome
      rw [hv]
      rfl
    · rw [if_neg hk, if_neg hk]
  · rw [if_neg hany, kget_append_single]
    by_cases hk : k = cacheKey u
    · have hnone : kget m k = none := by
        by_contra hcon
        have hs : (kget m k).isSome = true :=
          Option.ne_none_iff_isSome.mp hcon
        rw [hk] at hs
        exact hany ((any_key_iff_kget m (cacheKey u)).mpr hs)
      rw [hnone, if_pos hk]
      simp [hk]
    · have hk2 : ¬cacheKey u = k := fun h => hk h.symm
      cases hkk : kget m k with
      | none =>
        rw [if_neg hk]
        simp [hkk, hk2]
      | some v =>
        rw [if_neg hk]

theorem dedupBack_cons (u : CacheUnit) (l : List CacheUnit) :
    dedupBack (u :: l) = dedupStep (dedupBack l) u := rfl

/-- The central characterization: the `tempDict` entry at key `k` holds
the key components as word and code, and the weight of the FIRST
occurrence of `k` in the raw list (the backward iteration overwrites
the weight with each earlier occurrence it meets). -/
theorem kget_dedupBack (l : List CacheUnit) (k : String × String) :
    kget (dedupBack l) k =
      (l.find? (fun x => cacheKey x == k)).map
        (fun v => (⟨k.1, k.2, v.weight⟩ : CacheUnit)) := by
  induction l with
  | nil => rfl
  | cons u l ih =>
    rw [dedupBack_cons, kget_dedupStep]
    by_cases hk : k = cacheKey u
    · rw [if_pos hk, ih]
      have hfind : (u :: l).find? (fun x => cacheKey x == k) = some u :=
        List.find?_cons_of_pos _ (by simp [hk])
      rw [hfind]
      cases hfl : l.find? (fun x => cacheKey x == k) with
      | none =>
        simp only [Option.map_none', Option.map_some']
        have hku : k = (u.word, u.code) := hk
        rw [hku]
      | some v =>
        simp only [Option.map_some']
    · rw [if_neg hk, ih]
      have hfind : (u :: l).find? (fun x => cacheKey x == k) =
          l.find? (fun x => cacheKey x == k) :=
        List.find?_cons_of_neg _
          (by simp only [beq_iff_eq]; exact fun h => hk h.symm)
      rw [hfind]

theorem fst_dedupStep (m : List ((String × String) × CacheUnit))
    (u : CacheUnit) :
    (dedupStep m u).map Prod.fst =
      if m.any (fun p => p.1 == cacheKey u) then m.map Prod.fst
      else m.map Prod.fst ++ [cacheKey u] := by
  unfold dedupStep
  split
  · rw [List.map_map]
    refine List.map_congr_left ?_
    intro p hp
    show (if p.1 == cacheKey u then
        (p.1, { p.2 with weight := u.weight }) else p).1 = p.1
    split <;> rfl
  · simp

theorem nodup_keys_dedupBack (l : List CacheUnit) :
    ((dedupBack l).map Prod.fst).Nodup := by
  induction l with
  | nil => simp [dedupBack]
  | cons u l ih =>
    rw [dedupBack_cons, fst_dedupStep]
    split
    · exact ih
    · rename_i hany
      rw [List.nodup_append]
      refine ⟨ih, List.nodup_singleton _, ?_⟩
      intro a ha hb
      rw [List.mem_singleton] at hb
      obtain ⟨p, hp, hpa⟩ := List.mem_map.mp ha
      exact hany (List.any_eq_true.mpr ⟨p, hp, by simp [hpa, hb]⟩)

theorem kget_of_mem_nodup (m : List ((String × String) × CacheUnit))
    (hnd : (m.map Prod.fst).Nodup) (p : (String × String) × CacheUnit)
    (hp : p ∈ m) : kget m p.1 = some p.2 := by
  induction m with
  | nil => cases hp
  | cons q rest ih =>
    rw [List.map_cons, List.nodup_cons] at hnd
    rcases List.mem_cons.mp hp with rfl | hp2
    · simp [kget]
    · have hq : ¬q.1 = p.1 := by
        intro he
        exact hnd.1 (he ▸ List.mem_map_of_mem Prod.fst hp2)
      simp only [kget, beq_iff_eq, hq, if_false]
      exact ih hnd.2 hp2

theorem processList_eq (raw : List CacheUnit) :
    processList raw = (sortEntries (dedupBack raw)).map (·.2) := rfl

/-- C2 counterexample.  Construction keeps the weight of the EARLIEST
occurrence of a duplicated `(word, code)` key, not the latest (the
backward iteration overwrites the stored weight with each earlier
duplicate it meets), and the surviving entries are rebuilt in sorted
`(word, code)` key order, not in first-seen position order. -/
theorem processList_not_last_write_wins :
    processList [⟨"x", "a", .int 1⟩, ⟨"x", "a", .int 2⟩] ≠
        [⟨"x", "a", .int 2⟩] ∧
      processList [⟨"x", "a", .int 1⟩, ⟨"x", "a", .int 2⟩] =
        [⟨"x", "a", .int 1⟩] ∧
      processList [⟨"b", "a", .int 1⟩, ⟨"a", "a", .int 2⟩] ≠
        [⟨"b", "a", .int 1⟩, ⟨"a", "a", .int 2⟩] ∧
      processList [⟨"b", "a", .int 1⟩, ⟨"a", "a", .int 2⟩] =
        [⟨"a", "a", .int 2⟩, ⟨"b", "a", .int 1⟩] := by
  decide

/-- C2 amended.  Constructing a `CacheList` yields, per distinct
`(word, code)` key, exactly one entry, carrying the weight of the
EARLIEST occurrence of that key in the raw sequence; the surviving
entries appear sorted in ascending `(word, code)` key order. -/
theorem processList_characterization (raw : List CacheUnit) :
    ((processList raw).map cacheKey).Nodup ∧
    (∀ k : String × String,
      (∃ u ∈ processList raw, cacheKey u = k) ↔
        (∃ u ∈ raw, cacheKey u = k)) ∧
    (∀ u ∈ processList raw, ∃ v,
      raw.find? (fun x => cacheKey x == cacheKey u) = some v ∧
        u.weight = v.weight) ∧
    (processList raw).Pairwise
      (fun a b => keyLeB (cacheKey a) (cacheKey b) = true) := by
  have hperm : List.Perm (sortEntries (dedupBack raw)) (dedupBack raw) :=
    perm_sortEntries (dedupBack raw)
  have hnd : ((dedupBack raw).map Prod.fst).Nodup := nodup_keys_dedupBack raw
  have hentry : ∀ p ∈ dedupBack raw, ∃ v,
      raw.find? (fun x => cacheKey x == p.1) = some v ∧
        p.2 = ⟨p.1.1, p.1.2, v.weight⟩ := by
    intro p hp
    have hg := kget_of_mem_nodup (dedupBack raw) hnd p hp
    rw [kget_dedupBack] at hg
    cases hfl : raw.find? (fun x => cacheKey x == p.1) with
    | none =>
      rw [hfl] at hg
      simp at hg
    | some v =>
      rw [hfl] at hg
      simp only [Option.map_some'] at hg
      exact ⟨v, rfl, (Option.some.inj hg).symm⟩
  have hkey : ∀ p ∈ dedupBack raw, cacheKey p.2 = p.1 := by
    intro p hp
    obtain ⟨v, _, he⟩ := hentry p hp
    rw [he]
    show ((p.1.1, p.1.2) : String × String) = p.1
    exact Prod.mk.eta
  have hkeys : ∀ p ∈ sortEntries (dedupBack raw), cacheKey p.2 = p.1 :=
    fun p hp => hkey p (hperm.mem_iff.mp hp)
  refine ⟨?_, ?_, ?_, ?_⟩
  · rw [processList_eq, List.map_map]
    have hcongr : (sortEntries (dedupBack raw)).map (cacheKey ∘ (·.2)) =
        (sortEntries (dedupBack raw)).map Prod.fst :=
      List.map_congr_left (fun p hp => hkeys p hp)
    rw [hcongr]
    exact ((hperm.map Prod.fst).nodup_iff).mpr hnd
  · intro k
    constructor
    · rintro ⟨u, hu, hk⟩
      rw [processList_eq] at hu
      obtain ⟨p, hp, hpu⟩ := List.mem_map.mp hu
      have hpd : p ∈ dedupBack raw := hperm.mem_iff.mp hp
      obtain ⟨v, hfl, _⟩ := hentry p hpd
      have hvmem : v ∈ raw := List.mem_of_find?_eq_some hfl
      have hvkey : cacheKey v = p.1 := by
        have := List.find?_some hfl
        simpa using this
      refine ⟨v, hvmem, ?_⟩
      rw [hvkey, ← hk, ← hpu]
      exact (hkey p hpd).symm
    · rintro ⟨u, hu, hk⟩
      have hfs : (raw.find? (fun x => cacheKey x == k)).isSome = true :=
        List.find?_isSome.mpr ⟨u, hu, by simp [hk]⟩
      obtain ⟨v, hfl⟩ := Option.isSome_iff_exists.mp hfs
      have hks : (kget (dedupBack raw) k).isSome = true := by
        rw [kget_dedupBack, hfl]
        rfl
      obtain ⟨p, hpd, hpk⟩ := (kget_isSome_iff _ _).mp hks
      refine ⟨p.2, ?_, by rw [hkey p hpd, hpk]⟩
      rw [processList_eq]
      exact List.mem_map_of_mem (·.2) (hperm.mem_iff.mpr hpd)
  · intro u hu
    rw [processList_eq] at hu
    obtain ⟨p, hp, hpu⟩ := List.mem_map.mp hu
    have hpd : p ∈ dedupBack raw := hperm.mem_iff.mp hp
    obtain ⟨v, hfl, he⟩ := hentry p hpd
    have hck : cacheKey u = p.1 := by
      rw [← hpu]
      exact hkey p hpd
    refine ⟨v, by rw [hck]; exact hfl, ?_⟩
    rw [← hpu, he]
  · rw [processList_eq, List.pairwise_map]
    refine (pairwise_sortEntries (dedupBack raw)).imp_of_mem ?_
    intro a b ha hb hle
    rw [hkeys a ha, hkeys b hb]
    exact hle

/-- Witness for C2 amended: the surviving `("x", "a")` entry carries
the weight of the earliest raw occurrence. -/
theorem processList_characterization_witness :
    ∃ v, ([⟨"x", "a", .int 1⟩, ⟨"x", "a", .int 2⟩] : List CacheUnit).find?
        (fun x => cacheKey x == cacheKey ⟨"x", "a", .int 1⟩) = some v ∧
      (⟨"x", "a", .int 1⟩ : CacheUnit).weight = v.weight :=
  (processList_characterization
      [⟨"x", "a", .int 1⟩, ⟨"x", "a", .int 2⟩]).2.2.1
    ⟨"x", "a", .int 1⟩ (by decide)

end HumaAdder
